import Mathlib

/-!
Verification of the Port connector geometry of `mbuild/port.py`.

The Python source under verification is `src/mbuild/port.py` (class `Port`).
Its collaborators (`mbuild.compound.Compound`/`Particle`,
`mbuild.coordinate_transform.unit_vector`/`angle`/`rotation_matrix`, and the
`clone` deep-copy engine) are not part of the source tree; they are modelled
from the specification (spec.md sections 3, 4.1, 4.2 and 4.4), as noted on
each definition.  Machine floats are modelled by exact real numbers; the
numpy `allclose` tolerance test is embedded with its exact documented
formula (`|a - b| <= atol + rtol * |b|`, atol = 1e-8, rtol = 1e-5).
-/

open scoped Classical

/-- Modelled from the spec: 3-component real vector used for particle
positions (spec section 4.1 VectorMath operates on such vectors). -/
structure Vec3 where
  x : ℝ
  y : ℝ
  z : ℝ

namespace Vec3

instance : Zero Vec3 := ⟨⟨0, 0, 0⟩⟩

instance : Add Vec3 := ⟨fun a b => ⟨a.x + b.x, a.y + b.y, a.z + b.z⟩⟩

instance : Neg Vec3 := ⟨fun a => ⟨-a.x, -a.y, -a.z⟩⟩

instance : Sub Vec3 := ⟨fun a b => ⟨a.x - b.x, a.y - b.y, a.z - b.z⟩⟩

instance : SMul ℝ Vec3 := ⟨fun c a => ⟨c * a.x, c * a.y, c * a.z⟩⟩

/-- Modelled from the spec: dot product (spec 4.1). -/
def dot (a b : Vec3) : ℝ := a.x * b.x + a.y * b.y + a.z * b.z

/-- Modelled from the spec: cross product (spec 4.1). -/
def cross (a b : Vec3) : Vec3 :=
  ⟨a.y * b.z - a.z * b.y, a.z * b.x - a.x * b.z, a.x * b.y - a.y * b.x⟩

/-- Squared euclidean length. -/
def normSq (v : Vec3) : ℝ := dot v v

/-- Modelled from the spec: euclidean length `|v|` (spec 4.1). -/
noncomputable def norm (v : Vec3) : ℝ := Real.sqrt (normSq v)

end Vec3

/-- Modelled from the spec: `unit_vector(v) = v / |v|` (spec 4.1), as a total
function; `Vec3.norm v = 0` (the `DegenerateVectorError` case, checked
separately by `unitE`) yields the junk value `0`. -/
noncomputable def unitV (v : Vec3) : Vec3 := (Vec3.norm v)⁻¹ • v

/-- Modelled from the spec: `clamp(t, -1, 1)` used inside `angle` (spec 4.1). -/
noncomputable def clamp (t : ℝ) : ℝ := max (-1) (min 1 t)

/-- Modelled from the spec: `angle(a, b) = arccos(clamp(unit_vector(a) ·
unit_vector(b), -1, 1))` (spec 4.1). -/
noncomputable def vangle (a b : Vec3) : ℝ :=
  Real.arccos (clamp (Vec3.dot (unitV a) (unitV b)))

/-- Modelled from the spec: the action of `rotation_matrix(theta, axis)`
(Rodrigues axis-angle formula, spec 4.1) on a point `w`; the axis is
normalised first. -/
noncomputable def rotApply (θ : ℝ) (axis w : Vec3) : Vec3 :=
  Real.cos θ • w + Real.sin θ • Vec3.cross (unitV axis) w
    + (Vec3.dot (unitV axis) w * (1 - Real.cos θ)) • unitV axis

/-- numpy default absolute tolerance (1e-8). -/
noncomputable def atol : ℝ := 1 / 10 ^ 8

/-- numpy default relative tolerance (1e-5). -/
noncomputable def rtol : ℝ := 1 / 10 ^ 5

/-- One component of `np.allclose`: `|a - b| <= atol + rtol * |b|`. -/
def closeTo (a b : ℝ) : Prop := |a - b| ≤ atol + rtol * |b|

/-- The `np.allclose` test on 3-vectors, componentwise. -/
def allclose (a b : Vec3) : Prop :=
  closeTo a.x b.x ∧ closeTo a.y b.y ∧ closeTo a.z b.z

/-- The canonical default direction `[0, 1, 0]` of `Port.__init__`. -/
def d0 : Vec3 := ⟨0, 1, 0⟩

/-- The fixed z-axis `[0, 0, 1]` used by the degenerate alignment branches. -/
def zAxis : Vec3 := ⟨0, 0, 1⟩

/-- Modelled from the spec: a Particle is a leaf with a name, a 3D position
and a ghost flag (spec section 3); following the spec's design note on
reference identity, each particle additionally carries a stable synthetic id
`pid` standing for Python object identity. -/
structure Particle where
  name : String
  pos : Vec3
  ghost : Bool
  pid : ℕ

mutual
/-- Modelled from the spec: a Compound tree node — either a Particle leaf or
a Compound with a name, a ghost flag and an insertion-ordered list of
labelled children (spec section 3). -/
inductive Node where
  | particle (p : Particle)
  | compound (name : String) (ghost : Bool) (children : ChildList)
/-- Insertion-ordered labelled children of a Compound. -/
inductive ChildList where
  | nil
  | cons (label : String) (child : Node) (rest : ChildList)
end

mutual
/-- Apply a position transform to every particle of a subtree (the common
shape of `rotate`/`translate`, spec 4.2). -/
def Node.mapPos (f : Vec3 → Vec3) : Node → Node
  | .particle p => .particle { p with pos := f p.pos }
  | .compound n g cs => .compound n g (ChildList.mapPos f cs)
/-- The action of `Node.mapPos` on a child list. -/
def ChildList.mapPos (f : Vec3 → Vec3) : ChildList → ChildList
  | .nil => .nil
  | .cons lbl c rest => .cons lbl (Node.mapPos f c) (ChildList.mapPos f rest)
end

mutual
/-- The deterministic pre-order list of all particle positions of a subtree
(`xyz_with_ports`, ghosts included; spec 4.2/4.3). -/
def Node.positions : Node → List Vec3
  | .particle p => [p.pos]
  | .compound _ _ cs => ChildList.positions cs
/-- The action of `Node.positions` on a child list. -/
def ChildList.positions : ChildList → List Vec3
  | .nil => []
  | .cons _ c rest => Node.positions c ++ ChildList.positions rest
end

mutual
/-- The deterministic pre-order list of all particles of a subtree. -/
def Node.particles : Node → List Particle
  | .particle p => [p]
  | .compound _ _ cs => ChildList.particles cs
/-- The action of `Node.particles` on a child list. -/
def ChildList.particles : ChildList → List Particle
  | .nil => []
  | .cons _ c rest => Node.particles c ++ ChildList.particles rest
end

mutual
/-- Modelled from the spec: phase 1 of the CloneEngine (spec 4.4) —
structural deep copy preserving names, flags, positions and child order.
Fresh object identity is modelled by shifting every particle id by a
caller-chosen offset `k`, so the identity map of the spec is `pid ↦ pid + k`. -/
def Node.cloneWith (k : ℕ) : Node → Node
  | .particle p => .particle { p with pid := p.pid + k }
  | .compound n g cs => .compound n g (ChildList.cloneWith k cs)
/-- The action of `Node.cloneWith` on a child list. -/
def ChildList.cloneWith (k : ℕ) : ChildList → ChildList
  | .nil => .nil
  | .cons lbl c rest => .cons lbl (Node.cloneWith k c) (ChildList.cloneWith k rest)
end

/-- Look up a child of a Compound by its label. -/
def ChildList.find : ChildList → String → Option Node
  | .nil, _ => none
  | .cons l c rest, lbl => if l == lbl then some c else ChildList.find rest lbl

/-- Look up a direct child by label (`self['up']` etc.). -/
def Node.child : Node → String → Option Node
  | .particle _, _ => none
  | .compound _ _ cs, lbl => ChildList.find cs lbl

/-- Sum of a list of vectors. -/
def vsum : List Vec3 → Vec3 := List.foldr (· + ·) 0

/-- Modelled from the spec: `translate(delta)` adds `delta` to every
descendant particle position (spec 4.2). -/
def Node.translate (δ : Vec3) (t : Node) : Node := t.mapPos (· + δ)

/-- Modelled from the spec: `rotate(theta, axis)` applies the rotation about
the coordinate origin to every descendant particle position (spec 4.2). -/
noncomputable def Node.rotate (θ : ℝ) (axis : Vec3) (t : Node) : Node :=
  t.mapPos (rotApply θ axis)

/-- Modelled from the spec: `center` is the centroid of all descendant
particle positions, ghosts included (spec 4.2). -/
noncomputable def Node.center (t : Node) : Vec3 :=
  ((t.positions.length : ℝ))⁻¹ • vsum t.positions

/-- Modelled from the spec: `translate_to(point)` translates by
`point - self.center` (spec 4.2). -/
noncomputable def Node.translateTo (pt : Vec3) (t : Node) : Node :=
  t.translate (pt - t.center)

/-- Canonical local offset of the `middle` particle (port.py line 47). -/
def pMiddle : Vec3 := ⟨0.005, 0.0025, -0.0025⟩

/-- Canonical local offset of the `top` particle (port.py line 49). -/
def pTop : Vec3 := ⟨0.005, 0.0225, -0.0025⟩

/-- Canonical local offset of the `left` particle (port.py line 51). -/
def pLeft : Vec3 := ⟨-0.015, -0.0075, -0.0025⟩

/-- Canonical local offset of the `right` particle (port.py line 53). -/
def pRight : Vec3 := ⟨0.005, -0.0175, 0.0075⟩

/-- A `subport` Compound as built by `Port.__init__` (port.py lines 46-54):
four ghost particles named `G`, keyed `middle`/`top`/`left`/`right`, at the
canonical offsets, with consecutive particle ids starting at `base`. -/
def subport (base : ℕ) : Node :=
  .compound "subport" true
    (.cons "middle" (.particle ⟨"G", pMiddle, true, base⟩)
      (.cons "top" (.particle ⟨"G", pTop, true, base + 1⟩)
        (.cons "left" (.particle ⟨"G", pLeft, true, base + 2⟩)
          (.cons "right" (.particle ⟨"G", pRight, true, base + 3⟩) .nil))))

/-- The freshly built `up` sub-frame, with particle ids 0-3. -/
def upN : Node := subport 0

/-- The freshly built `down` sub-frame: `down = clone(up)` (port.py line
56), its four fresh particles getting ids 4-7. -/
def downN : Node := Node.cloneWith 4 upN

/-- The Port Compound with its two labelled children (port.py lines 38 and
57-58): name `Port`, ghost, children keyed `up` then `down`. -/
def portTree (u dn : Node) : Node :=
  .compound "Port" true (.cons "up" u (.cons "down" dn .nil))

/-- Modelled from the spec: the error raised by `unit_vector` and
`rotation_matrix` on a degenerate (zero) vector (spec 4.1, 7). -/
inductive VecError where
  | degenerateVector

/-- Modelled from the spec: checked `unit_vector` — raises
`DegenerateVectorError` when `|v| = 0`, else returns `v / |v|` (spec 4.1). -/
noncomputable def unitE (v : Vec3) : Except VecError Vec3 :=
  if Vec3.norm v = 0 then .error .degenerateVector else .ok (unitV v)

/-- Modelled from the spec: checked subtree rotation — `rotation_matrix`
raises `DegenerateVectorError` on a zero axis, else the Rodrigues rotation
is applied to every particle position (spec 4.1, 4.2). -/
noncomputable def rotateE (θ : ℝ) (axis : Vec3) (t : Node) :
    Except VecError Node :=
  if Vec3.norm axis = 0 then .error .degenerateVector
  else .ok (t.rotate θ axis)

/-- Modelled from the spec: checked `angle(a, b)` (spec 4.1) — normalises
both arguments (raising on a zero vector) and returns
`arccos(clamp(a·b, -1, 1))` on the unit vectors. -/
noncomputable def angleE (a b : Vec3) : Except VecError ℝ := do
  let ua ← unitE a
  let ub ← unitE b
  pure (Real.arccos (clamp (Vec3.dot ua ub)))

/-- The state of a Port: its Compound subtree plus the non-owning `anchor`
reference and the `used` occupancy flag (port.py class attributes). -/
structure Port where
  tree : Node
  anchor : Option Particle
  used : Bool

/-- The anchor positioning step of `Port.__init__` (port.py lines 73-74):
`if anchor: self.translate_to(anchor.pos)`. -/
noncomputable def anchorStep (anchor : Option Particle) (t : Node) : Node :=
  match anchor with
  | some a => t.translateTo a.pos
  | none => t

/-- The embedding of `Port.__init__` (port.py lines 37-76), with every
`unit_vector`/`rotation_matrix` degeneracy check made explicit in the
`Except` monad, in the evaluation order of the source:
build `up`, clone it into `down`, attach both, then take one of the three
alignment branches, then position at the anchor (if any), then shift by
`separation * unit_vector(orientation)`. -/
noncomputable def mkPortE (anchor : Option Particle) (orientation? : Option Vec3)
    (separation : ℝ) : Except VecError Port := do
  let o := orientation?.getD ⟨0, 1, 0⟩
  let um ← unitE (-o)
  let t ←
    if allclose d0 um then do
      let down1 ← rotateE Real.pi zAxis downN
      let up1 ← rotateE Real.pi zAxis upN
      let down2 ← rotateE Real.pi zAxis down1
      pure (portTree up1 down2)
    else do
      let uo ← unitE o
      if allclose d0 uo then do
        let down1 ← rotateE Real.pi zAxis downN
        pure (portTree upN down1)
      else do
        let normal := Vec3.cross d0 o
        let θ ← angleE d0 o
        let up1 ← rotateE θ normal upN
        let down1 ← rotateE θ normal downN
        let down2 ← rotateE Real.pi normal down1
        pure (portTree up1 down2)
  let t1 := anchorStep anchor t
  let uo2 ← unitE o
  pure { tree := t1.translate (separation • uo2), anchor := anchor,
         used := false }

/-- The embedding of `Port._clone` (port.py lines 78-82) on top of the
spec-modelled CloneEngine (spec 4.4): structural copy of the subtree with
fresh ids `pid + k`, the anchor remapped through the same identity map
`pid ↦ pid + k` (landing on its structural counterpart when it lay inside
the cloned subtree, and on a fresh independent copy otherwise), and the
`used` flag copied. -/
def clonePort (k : ℕ) (p : Port) : Port :=
  { tree := p.tree.cloneWith k
    anchor := p.anchor.map (fun a => { a with pid := a.pid + k })
    used := p.used }

/-- The direction of a frame: `unit_vector(P[1] - P[0])` over the pre-order
particle positions (port.py lines 89-93). -/
noncomputable def dirOf (t : Node) : Vec3 :=
  unitV (t.positions.getD 1 0 - t.positions.getD 0 0)

/-- The `Port.direction` property (port.py lines 89-93). -/
noncomputable def Port.direction (p : Port) : Vec3 := dirOf p.tree

/-- The `Port.center` property (port.py lines 84-87). -/
noncomputable def Port.centerQ (p : Port) : Vec3 := p.tree.center

/-- The direction of the `up` sub-frame (`self['up']`). -/
noncomputable def Port.upDir (p : Port) : Vec3 :=
  match p.tree.child "up" with
  | some u => dirOf u
  | none => 0

/-- The direction of the `down` sub-frame (`self['down']`). -/
noncomputable def Port.downDir (p : Port) : Vec3 :=
  match p.tree.child "down" with
  | some dn => dirOf dn
  | none => 0

/-- Sub-frame geometry after the antiparallel branch (port.py lines 61-64):
`up` and `down` both rotated π about z, `down` once more (it was rotated
first, then the whole Port). -/
noncomputable def core1 : Node :=
  portTree (upN.rotate Real.pi zAxis)
    ((downN.rotate Real.pi zAxis).rotate Real.pi zAxis)

/-- Sub-frame geometry after the parallel-default branch (port.py lines
65-67): only `down` rotated π about z. -/
noncomputable def core2 : Node :=
  portTree upN (downN.rotate Real.pi zAxis)

/-- Sub-frame geometry after the general branch (port.py lines 68-71): the
whole Port rotated by `angle(d, o)` about `cross(d, o)`, then `down` by a
further π about the same axis. -/
noncomputable def core3 (o : Vec3) : Node :=
  portTree (upN.rotate (vangle d0 o) (Vec3.cross d0 o))
    ((downN.rotate (vangle d0 o) (Vec3.cross d0 o)).rotate Real.pi
      (Vec3.cross d0 o))

/-- The final tree for a given aligned core: anchor positioning followed by
the separation shift (port.py lines 73-76). -/
noncomputable def finishTree (a : Option Particle) (o : Vec3) (s : ℝ)
    (core : Node) : Node :=
  (anchorStep a core).translate (s • unitV o)

/-- The position a Port is translated to before the separation shift:
its anchor's position, or the origin when it has no anchor. -/
noncomputable def anchorPos (a : Option Particle) : Vec3 :=
  match a with
  | some q => q.pos
  | none => 0

/-- The `translate_to` method lifted to a whole Port (a Compound method
in the source). -/
noncomputable def Port.translateToP (pt : Vec3) (p : Port) : Port :=
  { p with tree := p.tree.translateTo pt }

namespace Vec3

@[ext] theorem ext3 {a b : Vec3} (hx : a.x = b.x) (hy : a.y = b.y)
    (hz : a.z = b.z) : a = b := by
  cases a; cases b; simp_all

@[simp] theorem zero_x : (0 : Vec3).x = 0 := rfl

@[simp] theorem zero_y : (0 : Vec3).y = 0 := rfl

@[simp] theorem zero_z : (0 : Vec3).z = 0 := rfl

@[simp] theorem add_x (a b : Vec3) : (a + b).x = a.x + b.x := rfl

@[simp] theorem add_y (a b : Vec3) : (a + b).y = a.y + b.y := rfl

@[simp] theorem add_z (a b : Vec3) : (a + b).z = a.z + b.z := rfl

@[simp] theorem neg_x (a : Vec3) : (-a).x = -a.x := rfl

@[simp] theorem neg_y (a : Vec3) : (-a).y = -a.y := rfl

@[simp] theorem neg_z (a : Vec3) : (-a).z = -a.z := rfl

@[simp] theorem sub_x (a b : Vec3) : (a - b).x = a.x - b.x := rfl

@[simp] theorem sub_y (a b : Vec3) : (a - b).y = a.y - b.y := rfl

@[simp] theorem sub_z (a b : Vec3) : (a - b).z = a.z - b.z := rfl

@[simp] theorem smul_x (c : ℝ) (a : Vec3) : (c • a).x = c * a.x := rfl

@[simp] theorem smul_y (c : ℝ) (a : Vec3) : (c • a).y = c * a.y := rfl

@[simp] theorem smul_z (c : ℝ) (a : Vec3) : (c • a).z = c * a.z := rfl

@[simp] theorem mk_x (u v w : ℝ) : (Vec3.mk u v w).x = u := rfl

@[simp] theorem mk_y (u v w : ℝ) : (Vec3.mk u v w).y = v := rfl

@[simp] theorem mk_z (u v w : ℝ) : (Vec3.mk u v w).z = w := rfl

theorem normSq_nonneg (v : Vec3) : 0 ≤ normSq v := by
  simp only [normSq, dot]
  nlinarith [sq_nonneg v.x, sq_nonneg v.y, sq_nonneg v.z]

theorem normSq_eq_zero_iff (v : Vec3) : normSq v = 0 ↔ v = 0 := by
  constructor
  · intro h
    simp only [normSq, dot] at h
    have hx : v.x = 0 := by nlinarith [sq_nonneg v.x, sq_nonneg v.y, sq_nonneg v.z]
    have hy : v.y = 0 := by nlinarith [sq_nonneg v.x, sq_nonneg v.y, sq_nonneg v.z]
    have hz : v.z = 0 := by nlinarith [sq_nonneg v.x, sq_nonneg v.y, sq_nonneg v.z]
    ext <;> simp [hx, hy, hz]
  · intro h; subst h; simp [normSq, dot]

theorem norm_nonneg (v : Vec3) : 0 ≤ norm v := Real.sqrt_nonneg _

theorem norm_eq_zero_iff (v : Vec3) : norm v = 0 ↔ v = 0 := by
  rw [norm, Real.sqrt_eq_zero (normSq_nonneg v), normSq_eq_zero_iff]

theorem norm_pos_of_ne (v : Vec3) (h : v ≠ 0) : 0 < norm v := by
  rcases lt_or_eq_of_le (norm_nonneg v) with h' | h'
  · exact h'
  · exact absurd ((norm_eq_zero_iff v).mp h'.symm) h

theorem sq_norm (v : Vec3) : norm v ^ 2 = normSq v := by
  rw [norm, Real.sq_sqrt (normSq_nonneg v)]

end Vec3

theorem allclose_refl (a : Vec3) : allclose a a := by
  refine ⟨?_, ?_, ?_⟩ <;>
    · simp only [closeTo, sub_self, abs_zero, atol, rtol]
      positivity

theorem unitV_zero : unitV 0 = 0 := by
  ext <;> simp [unitV]

theorem dot_unitV_self {v : Vec3} (h : v ≠ 0) :
    Vec3.dot (unitV v) (unitV v) = 1 := by
  have hn : 0 < Vec3.norm v := Vec3.norm_pos_of_ne v h
  have hsq : Vec3.norm v ^ 2 = Vec3.normSq v := Vec3.sq_norm v
  simp only [unitV, Vec3.dot, Vec3.smul_x, Vec3.smul_y, Vec3.smul_z]
  have : Vec3.normSq v = Vec3.norm v ^ 2 := hsq.symm
  have hv : v.x * v.x + v.y * v.y + v.z * v.z = Vec3.norm v ^ 2 := by
    rw [hsq]; simp [Vec3.normSq, Vec3.dot]
  field_simp
  nlinarith [hv]

theorem unitV_of_unit {v : Vec3} (h : Vec3.dot v v = 1) : unitV v = v := by
  have hn : Vec3.norm v = 1 := by
    simp only [Vec3.norm, Vec3.normSq, h, Real.sqrt_one]
  ext <;> simp [unitV, hn]

theorem vnorm_neg (v : Vec3) : Vec3.norm (-v) = Vec3.norm v := by
  simp only [Vec3.norm, Vec3.normSq, Vec3.dot, Vec3.neg_x, Vec3.neg_y,
    Vec3.neg_z]
  ring_nf

theorem unitV_neg (v : Vec3) : unitV (-v) = -unitV v := by
  ext <;>
    simp only [unitV, vnorm_neg, Vec3.smul_x, Vec3.smul_y, Vec3.smul_z,
      Vec3.neg_x, Vec3.neg_y, Vec3.neg_z] <;> ring

theorem norm_smul_nonneg {c : ℝ} (hc : 0 ≤ c) (v : Vec3) :
    Vec3.norm (c • v) = c * Vec3.norm v := by
  simp only [Vec3.norm, Vec3.normSq, Vec3.dot, Vec3.smul_x, Vec3.smul_y,
    Vec3.smul_z]
  have : c * v.x * (c * v.x) + c * v.y * (c * v.y) + c * v.z * (c * v.z)
      = c ^ 2 * (v.x * v.x + v.y * v.y + v.z * v.z) := by ring
  rw [this, Real.sqrt_mul (by positivity), Real.sqrt_sq hc]

theorem unitV_smul_pos {c : ℝ} (hc : 0 < c) (v : Vec3) :
    unitV (c • v) = unitV v := by
  rcases eq_or_ne v 0 with h | h
  · subst h
    have : c • (0 : Vec3) = 0 := by ext <;> simp
    rw [this]
  · have hn : 0 < Vec3.norm v := Vec3.norm_pos_of_ne v h
    ext <;> simp [unitV, norm_smul_nonneg hc.le] <;>
      field_simp <;> ring

theorem clamp_of_abs_le {t : ℝ} (h : |t| ≤ 1) : clamp t = t := by
  rcases abs_le.mp h with ⟨h1, h2⟩
  simp only [clamp]
  rw [min_eq_right h2, max_eq_right h1]

theorem clamp_neg_one : clamp (-1) = -1 := by
  rw [clamp_of_abs_le]
  rw [abs_neg, abs_one]

theorem vangle_self_neg {v : Vec3} (h : Vec3.dot v v = 1) :
    vangle v (-v) = Real.pi := by
  have huv : unitV v = v := unitV_of_unit h
  have huv' : unitV (-v) = -v := by rw [unitV_neg, huv]
  have hdot : Vec3.dot (unitV v) (unitV (-v)) = -1 := by
    rw [huv, huv']
    simp only [Vec3.dot, Vec3.neg_x, Vec3.neg_y, Vec3.neg_z] at h ⊢
    nlinarith [h]
  rw [vangle, hdot, clamp_neg_one, Real.arccos_neg_one]

mutual
theorem Node.positions_mapPos (f : Vec3 → Vec3) :
    (t : Node) → (Node.mapPos f t).positions = t.positions.map f
  | .particle p => rfl
  | .compound n g cs => ChildList.positions_mapPosCL f cs
theorem ChildList.positions_mapPosCL (f : Vec3 → Vec3) :
    (cs : ChildList) →
      (ChildList.mapPos f cs).positions = cs.positions.map f
  | .nil => rfl
  | .cons l c rest => by
      simp only [ChildList.mapPos, ChildList.positions, List.map_append,
        Node.positions_mapPos f c, ChildList.positions_mapPosCL f rest]
end

mutual
theorem Node.particles_mapPos (f : Vec3 → Vec3) :
    (t : Node) → (Node.mapPos f t).particles
      = t.particles.map (fun q => { q with pos := f q.pos })
  | .particle p => rfl
  | .compound n g cs => ChildList.particles_mapPosCL f cs
theorem ChildList.particles_mapPosCL (f : Vec3 → Vec3) :
    (cs : ChildList) → (ChildList.mapPos f cs).particles
      = cs.particles.map (fun q => { q with pos := f q.pos })
  | .nil => rfl
  | .cons l c rest => by
      simp only [ChildList.mapPos, ChildList.particles, List.map_append,
        Node.particles_mapPos f c, ChildList.particles_mapPosCL f rest]
end

mutual
theorem Node.particles_cloneWith (k : ℕ) :
    (t : Node) → (Node.cloneWith k t).particles
      = t.particles.map (fun q => { q with pid := q.pid + k })
  | .particle p => rfl
  | .compound n g cs => ChildList.particles_cloneWithCL k cs
theorem ChildList.particles_cloneWithCL (k : ℕ) :
    (cs : ChildList) → (ChildList.cloneWith k cs).particles
      = cs.particles.map (fun q => { q with pid := q.pid + k })
  | .nil => rfl
  | .cons l c rest => by
      simp only [ChildList.cloneWith, ChildList.particles, List.map_append,
        Node.particles_cloneWith k c, ChildList.particles_cloneWithCL k rest]
end

theorem vsum_nil : vsum [] = 0 := rfl

theorem vsum_cons (a : Vec3) (l : List Vec3) : vsum (a :: l) = a + vsum l := rfl

theorem vsum_map_add (δ : Vec3) (l : List Vec3) :
    vsum (l.map (· + δ)) = vsum l + (l.length : ℝ) • δ := by
  induction l with
  | nil => ext <;> simp [vsum_nil]
  | cons a l ih =>
      simp only [List.map_cons, vsum_cons, ih, List.length_cons]
      ext <;> push_cast <;> simp <;> ring

theorem center_translate (δ : Vec3) (t : Node) (h : t.positions ≠ []) :
    (t.translate δ).center = t.center + δ := by
  have hlen : (0 : ℝ) < (t.positions.length : ℝ) := by
    have := List.length_pos.mpr h
    exact_mod_cast this
  simp only [Node.center, Node.translate, Node.positions_mapPos,
    List.length_map, vsum_map_add]
  ext <;> simp <;> field_simp <;> ring

theorem center_translateTo (pt : Vec3) (t : Node) (h : t.positions ≠ []) :
    (t.translateTo pt).center = pt := by
  rw [Node.translateTo, center_translate _ _ h]
  ext <;> simp

theorem ok_bind {α β : Type} (x : α) (f : α → Except VecError β) :
    (Except.ok x : Except VecError α) >>= f = f x := rfl

theorem pure_ok {α : Type} (x : α) :
    (pure x : Except VecError α) = Except.ok x := rfl

theorem vneg_eq_zero {v : Vec3} : -v = 0 ↔ v = 0 := by
  constructor
  · intro h
    have hx := congrArg Vec3.x h
    have hy := congrArg Vec3.y h
    have hz := congrArg Vec3.z h
    simp at hx hy hz
    ext <;> simp [hx, hy, hz]
  · intro h; subst h; ext <;> simp

theorem unitE_ok {v : Vec3} (h : v ≠ 0) : unitE v = .ok (unitV v) := by
  rw [unitE, if_neg]
  intro h0
  exact h ((Vec3.norm_eq_zero_iff v).mp h0)

theorem rotateE_ok (θ : ℝ) {axis : Vec3} (t : Node) (h : axis ≠ 0) :
    rotateE θ axis t = .ok (t.rotate θ axis) := by
  rw [rotateE, if_neg]
  intro h0
  exact h ((Vec3.norm_eq_zero_iff axis).mp h0)

theorem angleE_ok {a b : Vec3} (ha : a ≠ 0) (hb : b ≠ 0) :
    angleE a b = .ok (vangle a b) := by
  rw [angleE, unitE_ok ha, ok_bind, unitE_ok hb, ok_bind, vangle]
  rfl

theorem d0_ne : d0 ≠ (0 : Vec3) := by
  intro h
  have := congrArg Vec3.y h
  simp [d0] at this

theorem zAxis_ne : zAxis ≠ (0 : Vec3) := by
  intro h
  have := congrArg Vec3.z h
  simp [zAxis] at this

theorem mkPortE_branch1 (a : Option Particle) (s : ℝ) {o : Vec3} (ho : o ≠ 0)
    (h1 : allclose d0 (unitV (-o))) :
    mkPortE a (some o) s = .ok ⟨finishTree a o s core1, a, false⟩ := by
  have hno : -o ≠ 0 := fun h => ho (vneg_eq_zero.mp h)
  rw [mkPortE]
  simp only [Option.getD_some]
  rw [unitE_ok hno, ok_bind, if_pos h1, rotateE_ok _ _ zAxis_ne, ok_bind,
    rotateE_ok _ _ zAxis_ne, ok_bind, rotateE_ok _ _ zAxis_ne, ok_bind,
    pure_ok, ok_bind, unitE_ok ho, ok_bind]
  rfl

theorem mkPortE_branch2 (a : Option Particle) (s : ℝ) {o : Vec3} (ho : o ≠ 0)
    (h1 : ¬ allclose d0 (unitV (-o))) (h2 : allclose d0 (unitV o)) :
    mkPortE a (some o) s = .ok ⟨finishTree a o s core2, a, false⟩ := by
  have hno : -o ≠ 0 := fun h => ho (vneg_eq_zero.mp h)
  rw [mkPortE]
  simp only [Option.getD_some]
  rw [unitE_ok hno, ok_bind, if_neg h1, unitE_ok ho, ok_bind, if_pos h2,
    rotateE_ok _ _ zAxis_ne, ok_bind, pure_ok, ok_bind, ok_bind]
  rfl

theorem cross_d0_ne {o : Vec3} (ho : o ≠ 0)
    (h1 : ¬ allclose d0 (unitV (-o))) (h2 : ¬ allclose d0 (unitV o)) :
    Vec3.cross d0 o ≠ 0 := by
  intro hc
  have hz : o.z = 0 := by
    have := congrArg Vec3.x hc
    simpa [Vec3.cross, d0] using this
  have hx : o.x = 0 := by
    have := congrArg Vec3.z hc
    simp [Vec3.cross, d0] at this
    linarith
  have hnrm : Vec3.norm o = |o.y| := by
    rw [Vec3.norm, Vec3.normSq, Vec3.dot, hx, hz]
    rw [show (0 : ℝ) * 0 + o.y * o.y + 0 * 0 = o.y ^ 2 by ring,
      Real.sqrt_sq_eq_abs]
  rcases lt_trichotomy o.y 0 with hy | hy | hy
  · apply h1
    have : unitV (-o) = d0 := by
      ext <;>
        simp [unitV, vnorm_neg, hnrm, hx, hz, d0, abs_of_neg hy]
      · rw [inv_neg, neg_mul, neg_neg, inv_mul_cancel₀ hy.ne]
    rw [this]
    exact allclose_refl d0
  · exact ho (by ext <;> simp [hx, hy, hz])
  · apply h2
    have : unitV o = d0 := by
      ext <;> simp [unitV, hnrm, hx, hz, d0, abs_of_pos hy]
      · field_simp
    rw [this]
    exact allclose_refl d0

theorem mkPortE_branch3 (a : Option Particle) (s : ℝ) {o : Vec3} (ho : o ≠ 0)
    (h1 : ¬ allclose d0 (unitV (-o))) (h2 : ¬ allclose d0 (unitV o)) :
    mkPortE a (some o) s = .ok ⟨finishTree a o s (core3 o), a, false⟩ := by
  have hno : -o ≠ 0 := fun h => ho (vneg_eq_zero.mp h)
  have hcr : Vec3.cross d0 o ≠ 0 := cross_d0_ne ho h1 h2
  rw [mkPortE]
  simp only [Option.getD_some]
  rw [unitE_ok hno, ok_bind, if_neg h1, unitE_ok ho, ok_bind, if_neg h2,
    angleE_ok d0_ne ho, ok_bind, rotateE_ok _ _ hcr, ok_bind,
    rotateE_ok _ _ hcr, ok_bind, rotateE_ok _ _ hcr, ok_bind, pure_ok,
    ok_bind, ok_bind]
  rfl

theorem mkPortE_ok (a : Option Particle) (s : ℝ) {o : Vec3} (ho : o ≠ 0) :
    ∃ p, mkPortE a (some o) s = .ok p := by
  by_cases h1 : allclose d0 (unitV (-o))
  · exact ⟨_, mkPortE_branch1 a s ho h1⟩
  · by_cases h2 : allclose d0 (unitV o)
    · exact ⟨_, mkPortE_branch2 a s ho h1 h2⟩
    · exact ⟨_, mkPortE_branch3 a s ho h1 h2⟩

theorem rotApply_zero (θ : ℝ) (ax : Vec3) : rotApply θ ax 0 = 0 := by
  ext <;> simp [rotApply, Vec3.cross, Vec3.dot]

theorem rotApply_add (θ : ℝ) (ax a b : Vec3) :
    rotApply θ ax (a + b) = rotApply θ ax a + rotApply θ ax b := by
  ext <;> simp [rotApply, Vec3.cross, Vec3.dot] <;> ring

theorem rotApply_sub (θ : ℝ) (ax a b : Vec3) :
    rotApply θ ax a - rotApply θ ax b = rotApply θ ax (a - b) := by
  ext <;> simp [rotApply, Vec3.cross, Vec3.dot] <;> ring

theorem rotApply_smul (θ : ℝ) (ax : Vec3) (c : ℝ) (w : Vec3) :
    rotApply θ ax (c • w) = c • rotApply θ ax w := by
  ext <;> simp [rotApply, Vec3.cross, Vec3.dot] <;> ring

theorem rotApply_neg (θ : ℝ) (ax w : Vec3) :
    rotApply θ ax (-w) = -rotApply θ ax w := by
  ext <;> simp [rotApply, Vec3.cross, Vec3.dot] <;> ring

theorem rotApply_pi_perp {ax w : Vec3} (h : Vec3.dot (unitV ax) w = 0) :
    rotApply Real.pi ax w = -w := by
  rw [rotApply, h, Real.cos_pi, Real.sin_pi]
  ext <;> simp

theorem unitV_d0 : unitV d0 = d0 :=
  unitV_of_unit (by norm_num [Vec3.dot, d0])

theorem unitV_zAxis : unitV zAxis = zAxis :=
  unitV_of_unit (by norm_num [Vec3.dot, zAxis])

theorem dot_zAxis_d0 : Vec3.dot (unitV zAxis) d0 = 0 := by
  rw [unitV_zAxis]; norm_num [Vec3.dot, zAxis, d0]

theorem rotApply_pi_z_d0 : rotApply Real.pi zAxis d0 = -d0 :=
  rotApply_pi_perp dot_zAxis_d0

theorem rotApply_pi_z_neg_d0 : rotApply Real.pi zAxis (-d0) = d0 := by
  rw [rotApply_neg, rotApply_pi_z_d0]
  ext <;> simp

theorem diff_top_mid : pTop - pMiddle = (0.02 : ℝ) • d0 := by
  ext <;> norm_num [pTop, pMiddle, d0]

theorem getD_map (f : Vec3 → Vec3) (l : List Vec3) (n : ℕ) (d : Vec3)
    (h : n < l.length) : (l.map f).getD n d = f (l.getD n d) := by
  induction l generalizing n with
  | nil => simp at h
  | cons a l ih =>
      cases n with
      | zero => rfl
      | succ n => simpa using ih n (by simpa using h)

theorem len_translate (δ : Vec3) (t : Node) :
    (t.translate δ).positions.length = t.positions.length := by
  rw [Node.translate, Node.positions_mapPos, List.length_map]

theorem dirOf_translate (δ : Vec3) (t : Node)
    (hl : 2 ≤ t.positions.length) : dirOf (t.translate δ) = dirOf t := by
  have h1 : 1 < t.positions.length := lt_of_lt_of_le one_lt_two hl
  have h0 : 0 < t.positions.length := lt_trans one_pos h1
  rw [dirOf, Node.translate, Node.positions_mapPos,
    getD_map _ _ _ _ h1, getD_map _ _ _ _ h0, dirOf]
  congr 1
  ext <;> simp

theorem dirOf_finishTree (a : Option Particle) (o : Vec3) (s : ℝ) (t : Node)
    (hl : 2 ≤ t.positions.length) : dirOf (finishTree a o s t) = dirOf t := by
  cases a with
  | none =>
      simp only [finishTree, anchorStep]
      exact dirOf_translate _ _ hl
  | some p =>
      have hl' : 2 ≤ (t.translate (p.pos - t.center)).positions.length := by
        rw [len_translate]; exact hl
      simp only [finishTree, anchorStep, Node.translateTo]
      rw [dirOf_translate _ _ hl', dirOf_translate _ _ hl]

theorem translate_portTree (δ : Vec3) (u dn : Node) :
    (portTree u dn).translate δ = portTree (u.translate δ) (dn.translate δ) :=
  rfl

theorem child_portTree_up (u dn : Node) :
    (portTree u dn).child "up" = some u := rfl

theorem child_portTree_down (u dn : Node) :
    (portTree u dn).child "down" = some dn := rfl

theorem upDir_finish (a : Option Particle) (o : Vec3) (s : ℝ) (u dn : Node)
    (anc : Option Particle) (us : Bool) (hl : 2 ≤ u.positions.length) :
    Port.upDir ⟨finishTree a o s (portTree u dn), anc, us⟩ = dirOf u := by
  cases a with
  | none =>
      simp only [finishTree, anchorStep, translate_portTree, Port.upDir,
        child_portTree_up]
      exact dirOf_translate _ _ hl
  | some p =>
      have hl' : 2 ≤ (u.translate
          (p.pos - (portTree u dn).center)).positions.length := by
        rw [len_translate]; exact hl
      simp only [finishTree, anchorStep, Node.translateTo,
        translate_portTree, Port.upDir, child_portTree_up]
      rw [dirOf_translate _ _ hl', dirOf_translate _ _ hl]

theorem downDir_finish (a : Option Particle) (o : Vec3) (s : ℝ) (u dn : Node)
    (anc : Option Particle) (us : Bool) (hl : 2 ≤ dn.positions.length) :
    Port.downDir ⟨finishTree a o s (portTree u dn), anc, us⟩ = dirOf dn := by
  cases a with
  | none =>
      simp only [finishTree, anchorStep, translate_portTree, Port.downDir,
        child_portTree_down]
      exact dirOf_translate _ _ hl
  | some p =>
      have hl' : 2 ≤ (dn.translate
          (p.pos - (portTree u dn).center)).positions.length := by
        rw [len_translate]; exact hl
      simp only [finishTree, anchorStep, Node.translateTo,
        translate_portTree, Port.downDir, child_portTree_down]
      rw [dirOf_translate _ _ hl', dirOf_translate _ _ hl]

theorem positions_upN : upN.positions = [pMiddle, pTop, pLeft, pRight] := rfl

theorem positions_downN :
    downN.positions = [pMiddle, pTop, pLeft, pRight] := rfl

theorem unitV_rot_diff (θ : ℝ) (ax : Vec3) :
    unitV (rotApply θ ax pTop - rotApply θ ax pMiddle)
      = unitV (rotApply θ ax d0) := by
  rw [rotApply_sub, diff_top_mid, rotApply_smul,
    unitV_smul_pos (by norm_num)]

theorem dirOf_upN : dirOf upN = d0 := by
  rw [dirOf, positions_upN]
  simp only [List.getD_cons_zero, List.getD_cons_succ]
  rw [show pTop - pMiddle = (0.02 : ℝ) • d0 from diff_top_mid,
    unitV_smul_pos (by norm_num), unitV_d0]

theorem dirOf_rot_upN (θ : ℝ) (ax : Vec3) :
    dirOf (upN.rotate θ ax) = unitV (rotApply θ ax d0) := by
  rw [Node.rotate, dirOf, Node.positions_mapPos, positions_upN]
  simp only [List.map_cons, List.map_nil, List.getD_cons_zero,
    List.getD_cons_succ]
  exact unitV_rot_diff θ ax

theorem dirOf_rot_downN (θ : ℝ) (ax : Vec3) :
    dirOf (downN.rotate θ ax) = unitV (rotApply θ ax d0) := by
  rw [Node.rotate, dirOf, Node.positions_mapPos, positions_downN]
  simp only [List.map_cons, List.map_nil, List.getD_cons_zero,
    List.getD_cons_succ]
  exact unitV_rot_diff θ ax

theorem dirOf_rot2_downN (θ1 : ℝ) (ax1 : Vec3) (θ2 : ℝ) (ax2 : Vec3) :
    dirOf ((downN.rotate θ1 ax1).rotate θ2 ax2)
      = unitV (rotApply θ2 ax2 (rotApply θ1 ax1 d0)) := by
  rw [Node.rotate, Node.rotate, dirOf, Node.positions_mapPos,
    Node.positions_mapPos, positions_downN]
  simp only [List.map_cons, List.map_nil, List.getD_cons_zero,
    List.getD_cons_succ]
  rw [rotApply_sub, rotApply_sub, diff_top_mid, rotApply_smul, rotApply_smul,
    unitV_smul_pos (by norm_num)]

theorem dot_unitV_cross_d0 (o : Vec3) :
    Vec3.dot (unitV (Vec3.cross d0 o)) (unitV o) = 0 := by
  have h0 : Vec3.dot (Vec3.cross d0 o) o = 0 := by
    simp [Vec3.cross, Vec3.dot, d0]
    ring
  simp only [unitV, Vec3.dot, Vec3.smul_x, Vec3.smul_y, Vec3.smul_z]
  simp only [Vec3.dot] at h0
  linear_combination
    ((Vec3.norm (Vec3.cross d0 o))⁻¹ * (Vec3.norm o)⁻¹) * h0

/-- The heart of the general alignment branch: rotating the canonical
default direction by `angle(d0, o)` about `cross(d0, o)` yields exactly
`unit_vector(o)`. -/
theorem rodrigues_align {o : Vec3} (ho : o ≠ 0)
    (hcr : Vec3.cross d0 o ≠ 0) :
    rotApply (vangle d0 o) (Vec3.cross d0 o) d0 = unitV o := by
  have hn0 : 0 < Vec3.norm o := Vec3.norm_pos_of_ne o ho
  have hn2 : Vec3.norm o ^ 2 = o.x ^ 2 + o.y ^ 2 + o.z ^ 2 := by
    rw [Vec3.sq_norm]
    simp [Vec3.normSq, Vec3.dot]
    ring
  have hw : Vec3.cross d0 o = ⟨o.z, 0, -o.x⟩ := by
    ext <;> simp [Vec3.cross, d0]
  have hm0 : 0 < Vec3.norm (Vec3.cross d0 o) := Vec3.norm_pos_of_ne _ hcr
  have hm2 : Vec3.norm (Vec3.cross d0 o) ^ 2 = o.z ^ 2 + o.x ^ 2 := by
    rw [Vec3.sq_norm, hw]
    simp [Vec3.normSq, Vec3.dot]
    ring
  have hdot : Vec3.dot (unitV d0) (unitV o) = (Vec3.norm o)⁻¹ * o.y := by
    rw [unitV_d0]
    simp [Vec3.dot, d0, unitV]
  have habs : |(Vec3.norm o)⁻¹ * o.y| ≤ 1 := by
    rw [abs_mul, abs_inv, abs_of_pos hn0]
    have hy : |o.y| ≤ Vec3.norm o := by
      have h1 : o.y ^ 2 ≤ Vec3.norm o ^ 2 := by
        nlinarith [hn2, sq_nonneg o.x, sq_nonneg o.z]
      have h2 := Real.sqrt_le_sqrt h1
      rw [Real.sqrt_sq hn0.le] at h2
      rw [← Real.sqrt_sq_eq_abs]
      exact h2
    rw [← div_eq_inv_mul, div_le_one hn0]
    exact hy
  have hclamp : clamp (Vec3.dot (unitV d0) (unitV o))
      = (Vec3.norm o)⁻¹ * o.y := by
    rw [hdot, clamp_of_abs_le habs]
  have hcos : Real.cos (vangle d0 o) = (Vec3.norm o)⁻¹ * o.y := by
    rw [vangle, hclamp,
      Real.cos_arccos (abs_le.mp habs).1 (abs_le.mp habs).2]
  have hsin : Real.sin (vangle d0 o)
      = (Vec3.norm o)⁻¹ * Vec3.norm (Vec3.cross d0 o) := by
    rw [vangle, hclamp, Real.sin_arccos]
    have h1 : 1 - ((Vec3.norm o)⁻¹ * o.y) ^ 2
        = ((Vec3.norm o)⁻¹ * Vec3.norm (Vec3.cross d0 o)) ^ 2 := by
      field_simp
      nlinarith [hn2, hm2]
    rw [h1, Real.sqrt_sq (by positivity)]
  have hm0' : 0 < Vec3.norm (⟨o.z, 0, -o.x⟩ : Vec3) := hw ▸ hm0
  rw [rotApply, hcos, hsin, hw]
  ext <;> simp [unitV, Vec3.cross, Vec3.dot, d0] <;>
    field_simp <;> ring

/-- Tolerance analysis of the two degenerate branches: a unit vector that is
`allclose` to the canonical default is within 1e-6 of it (much closer, in
fact). -/
theorem close_unit {u : Vec3} (hc : allclose d0 u)
    (hu : Vec3.dot u u = 1) :
    Vec3.normSq (u - d0) ≤ (1 / 10 ^ 6) ^ 2 := by
  obtain ⟨hx, hy, hz⟩ := hc
  rw [closeTo] at hx hy hz
  simp only [d0, Vec3.mk_x, Vec3.mk_y, Vec3.mk_z, atol, rtol] at hx hy hz
  rw [zero_sub, abs_neg] at hx hz
  have hxa : |u.x| ≤ 2 / 10 ^ 8 := by linarith [abs_nonneg u.x]
  have hza : |u.z| ≤ 2 / 10 ^ 8 := by linarith [abs_nonneg u.z]
  have hx2 : u.x ^ 2 ≤ 4 / 10 ^ 16 := by
    nlinarith [abs_nonneg u.x, sq_abs u.x]
  have hz2 : u.z ^ 2 ≤ 4 / 10 ^ 16 := by
    nlinarith [abs_nonneg u.z, sq_abs u.z]
  have hd : u.x * u.x + u.y * u.y + u.z * u.z = 1 := by
    simpa [Vec3.dot] using hu
  have hyabs : |u.y| ≤ 1 := by
    rw [abs_le]
    constructor <;> nlinarith
  have hypos : 0 < u.y := by
    by_contra hneg
    push_neg at hneg
    rw [abs_of_nonneg (by linarith : (0:ℝ) ≤ 1 - u.y)] at hy
    have := abs_nonneg u.y
    linarith [hyabs]
  have hyle : u.y ≤ 1 := le_trans (le_abs_self u.y) hyabs
  have h1y : 1 - u.y ≤ u.x ^ 2 + u.z ^ 2 := by nlinarith
  have h2 : (1 - u.y) ^ 2 ≤ (u.x ^ 2 + u.z ^ 2) ^ 2 := by
    nlinarith [h1y, hyle]
  simp only [Vec3.normSq, Vec3.dot, Vec3.sub_x, Vec3.sub_y, Vec3.sub_z,
    d0, Vec3.mk_x, Vec3.mk_y, Vec3.mk_z]
  nlinarith [hx2, hz2, h2]

theorem positions_portTree (u dn : Node) :
    (portTree u dn).positions = u.positions ++ dn.positions := by
  simp [portTree, Node.positions, ChildList.positions]

theorem len_rotate (θ : ℝ) (ax : Vec3) (t : Node) :
    (t.rotate θ ax).positions.length = t.positions.length := by
  rw [Node.rotate, Node.positions_mapPos, List.length_map]

theorem len_upN : upN.positions.length = 4 := rfl

theorem len_downN : downN.positions.length = 4 := rfl

theorem dirOf_portTree (u dn : Node) (hl : 2 ≤ u.positions.length) :
    dirOf (portTree u dn) = dirOf u := by
  have h1 : 1 < u.positions.length := lt_of_lt_of_le one_lt_two hl
  have h0 : 0 < u.positions.length := lt_trans one_pos h1
  rw [dirOf, positions_portTree, List.getD_append _ _ _ _ h1,
    List.getD_append _ _ _ _ h0, dirOf]

theorem unitV_neg_d0 : unitV (-d0) = -d0 := by
  rw [unitV_neg, unitV_d0]

theorem normSq_sub_comm (a b : Vec3) :
    Vec3.normSq (a - b) = Vec3.normSq (b - a) := by
  simp [Vec3.normSq, Vec3.dot]
  ring

theorem dirOf_core1_up : dirOf (upN.rotate Real.pi zAxis) = -d0 := by
  rw [dirOf_rot_upN, rotApply_pi_z_d0, unitV_neg_d0]

theorem dirOf_core1_down :
    dirOf ((downN.rotate Real.pi zAxis).rotate Real.pi zAxis) = d0 := by
  rw [dirOf_rot2_downN, rotApply_pi_z_d0, rotApply_pi_z_neg_d0, unitV_d0]

theorem dirOf_core2_down : dirOf (downN.rotate Real.pi zAxis) = -d0 := by
  rw [dirOf_rot_downN, rotApply_pi_z_d0, unitV_neg_d0]

theorem dirOf_core3_up {o : Vec3} (ho : o ≠ 0)
    (hcr : Vec3.cross d0 o ≠ 0) :
    dirOf (upN.rotate (vangle d0 o) (Vec3.cross d0 o)) = unitV o := by
  rw [dirOf_rot_upN, rodrigues_align ho hcr, unitV_of_unit (dot_unitV_self ho)]

theorem dirOf_core3_down {o : Vec3} (ho : o ≠ 0)
    (hcr : Vec3.cross d0 o ≠ 0) :
    dirOf ((downN.rotate (vangle d0 o) (Vec3.cross d0 o)).rotate Real.pi
      (Vec3.cross d0 o)) = -unitV o := by
  rw [dirOf_rot2_downN, rodrigues_align ho hcr,
    rotApply_pi_perp (dot_unitV_cross_d0 o), unitV_neg,
    unitV_of_unit (dot_unitV_self ho)]

theorem len_core1 : core1.positions.length = 8 := by
  rw [core1, positions_portTree, List.length_append, len_rotate, len_rotate,
    len_rotate, len_upN, len_downN]

theorem len_core2 : core2.positions.length = 8 := by
  rw [core2, positions_portTree, List.length_append, len_rotate, len_upN,
    len_downN]

theorem len_core3 (o : Vec3) : (core3 o).positions.length = 8 := by
  rw [core3, positions_portTree, List.length_append, len_rotate, len_rotate,
    len_rotate, len_upN, len_downN]

theorem vangle_neg_self {v : Vec3} (h : Vec3.dot v v = 1) :
    vangle (-v) v = Real.pi := by
  have h' : Vec3.dot (-v) (-v) = 1 := by
    rw [show Vec3.dot (-v) (-v) = Vec3.dot v v by
      simp only [Vec3.dot, Vec3.neg_x, Vec3.neg_y, Vec3.neg_z]; ring]
    exact h
  have h2 := vangle_self_neg h'
  rwa [show -(-v) = v by ext <;> simp] at h2

/-- C1: for every non-zero orientation vector `o` (and any anchor and
separation), a freshly constructed Port's `direction` is parallel to
`unit_vector(o)` within tolerance 1e-6, whichever of the three alignment
branches fired — stated as: the squared distance between `direction` and
`unit_vector(o)` is at most (1e-6)². -/
theorem C1_port_direction (a : Option Particle) (o : Vec3) (s : ℝ)
    (p : Port) (ho : o ≠ 0) (hp : mkPortE a (some o) s = .ok p) :
    Vec3.normSq (p.direction - unitV o) ≤ (1 / 10 ^ 6) ^ 2 := by
  by_cases h1 : allclose d0 (unitV (-o))
  · rw [mkPortE_branch1 a s ho h1] at hp
    injection hp with hp
    subst hp
    have hdir : Port.direction (⟨finishTree a o s core1, a, false⟩ : Port)
        = -d0 := by
      show dirOf (finishTree a o s core1) = -d0
      rw [dirOf_finishTree _ _ _ _ (by rw [len_core1]; norm_num)]
      simp only [core1]
      rw [dirOf_portTree _ _ (by rw [len_rotate, len_upN]; norm_num)]
      exact dirOf_core1_up
    rw [hdir]
    have hu1 : Vec3.dot (unitV (-o)) (unitV (-o)) = 1 :=
      dot_unitV_self (fun h => ho (vneg_eq_zero.mp h))
    have hcl := close_unit h1 hu1
    have heq : Vec3.normSq (-d0 - unitV o)
        = Vec3.normSq (unitV (-o) - d0) := by
      rw [unitV_neg]
      simp only [Vec3.normSq, Vec3.dot, Vec3.sub_x, Vec3.sub_y, Vec3.sub_z,
        Vec3.neg_x, Vec3.neg_y, Vec3.neg_z]
      ring
    rw [heq]
    exact hcl
  · by_cases h2 : allclose d0 (unitV o)
    · rw [mkPortE_branch2 a s ho h1 h2] at hp
      injection hp with hp
      subst hp
      have hdir : Port.direction (⟨finishTree a o s core2, a, false⟩ : Port)
          = d0 := by
        show dirOf (finishTree a o s core2) = d0
        rw [dirOf_finishTree _ _ _ _ (by rw [len_core2]; norm_num)]
        simp only [core2]
        rw [dirOf_portTree _ _ (by rw [len_upN]; norm_num)]
        exact dirOf_upN
      rw [hdir, normSq_sub_comm]
      exact close_unit h2 (dot_unitV_self ho)
    · have hcr := cross_d0_ne ho h1 h2
      rw [mkPortE_branch3 a s ho h1 h2] at hp
      injection hp with hp
      subst hp
      have hdir : Port.direction
          (⟨finishTree a o s (core3 o), a, false⟩ : Port) = unitV o := by
        show dirOf (finishTree a o s (core3 o)) = unitV o
        rw [dirOf_finishTree _ _ _ _ (by rw [len_core3]; norm_num)]
        simp only [core3]
        rw [dirOf_portTree _ _ (by rw [len_rotate, len_upN]; norm_num)]
        exact dirOf_core3_up ho hcr
      rw [hdir]
      rw [show unitV o - unitV o = 0 by ext <;> simp]
      rw [show Vec3.normSq 0 = 0 by simp [Vec3.normSq, Vec3.dot]]
      positivity

/-- C1 witness: a concrete instantiation at `o = (1,0,0)`, no anchor,
separation 0. -/
theorem C1_port_direction_witness :
    ∃ p, mkPortE none (some ⟨1, 0, 0⟩) 0 = .ok p ∧
      Vec3.normSq (p.direction - unitV ⟨1, 0, 0⟩) ≤ (1 / 10 ^ 6) ^ 2 := by
  have ho : (⟨1, 0, 0⟩ : Vec3) ≠ 0 := fun h => by
    have := congrArg Vec3.x h
    simp at this
  obtain ⟨p, hp⟩ := mkPortE_ok none 0 ho
  exact ⟨p, hp, C1_port_direction none ⟨1, 0, 0⟩ 0 p ho hp⟩

/-- C2: for every non-zero orientation a Port was constructed with, the
angle between the `up` sub-frame's direction and the `down` sub-frame's
direction is exactly π, regardless of which alignment branch was taken. -/
theorem C2_up_down_antiparallel (a : Option Particle) (o : Vec3) (s : ℝ)
    (p : Port) (ho : o ≠ 0) (hp : mkPortE a (some o) s = .ok p) :
    vangle p.upDir p.downDir = Real.pi := by
  by_cases h1 : allclose d0 (unitV (-o))
  · rw [mkPortE_branch1 a s ho h1] at hp
    injection hp with hp
    subst hp
    have hup : Port.upDir (⟨finishTree a o s core1, a, false⟩ : Port)
        = -d0 := by
      simp only [core1]
      rw [upDir_finish _ _ _ _ _ _ _ (by rw [len_rotate, len_upN]; norm_num)]
      exact dirOf_core1_up
    have hdn : Port.downDir (⟨finishTree a o s core1, a, false⟩ : Port)
        = d0 := by
      simp only [core1]
      rw [downDir_finish _ _ _ _ _ _ _
        (by rw [len_rotate, len_rotate, len_downN]; norm_num)]
      exact dirOf_core1_down
    rw [hup, hdn]
    exact vangle_neg_self (by norm_num [Vec3.dot, d0])
  · by_cases h2 : allclose d0 (unitV o)
    · rw [mkPortE_branch2 a s ho h1 h2] at hp
      injection hp with hp
      subst hp
      have hup : Port.upDir (⟨finishTree a o s core2, a, false⟩ : Port)
          = d0 := by
        simp only [core2]
        rw [upDir_finish _ _ _ _ _ _ _ (by rw [len_upN]; norm_num)]
        exact dirOf_upN
      have hdn : Port.downDir (⟨finishTree a o s core2, a, false⟩ : Port)
          = -d0 := by
        simp only [core2]
        rw [downDir_finish _ _ _ _ _ _ _
          (by rw [len_rotate, len_downN]; norm_num)]
        exact dirOf_core2_down
      rw [hup, hdn]
      exact vangle_self_neg (by norm_num [Vec3.dot, d0])
    · have hcr := cross_d0_ne ho h1 h2
      rw [mkPortE_branch3 a s ho h1 h2] at hp
      injection hp with hp
      subst hp
      have hup : Port.upDir
          (⟨finishTree a o s (core3 o), a, false⟩ : Port) = unitV o := by
        simp only [core3]
        rw [upDir_finish _ _ _ _ _ _ _
          (by rw [len_rotate, len_upN]; norm_num)]
        exact dirOf_core3_up ho hcr
      have hdn : Port.downDir
          (⟨finishTree a o s (core3 o), a, false⟩ : Port) = -unitV o := by
        simp only [core3]
        rw [downDir_finish _ _ _ _ _ _ _
          (by rw [len_rotate, len_rotate, len_downN]; norm_num)]
        exact dirOf_core3_down ho hcr
      rw [hup, hdn]
      exact vangle_self_neg (dot_unitV_self ho)

/-- C2 witness: a concrete instantiation at `o = (1,1,0)`, no anchor,
separation 0. -/
theorem C2_up_down_antiparallel_witness :
    ∃ p, mkPortE none (some ⟨1, 1, 0⟩) 0 = .ok p ∧
      vangle p.upDir p.downDir = Real.pi := by
  have ho : (⟨1, 1, 0⟩ : Vec3) ≠ 0 := fun h => by
    have := congrArg Vec3.x h
    simp at this
  obtain ⟨p, hp⟩ := mkPortE_ok none 0 ho
  exact ⟨p, hp, C2_up_down_antiparallel none ⟨1, 1, 0⟩ 0 p ho hp⟩

theorem vsum_append (l₁ l₂ : List Vec3) :
    vsum (l₁ ++ l₂) = vsum l₁ + vsum l₂ := by
  induction l₁ with
  | nil => rw [List.nil_append]; ext <;> simp [vsum_nil]
  | cons a l ih =>
      rw [List.cons_append, vsum_cons, vsum_cons, ih]
      ext <;> simp <;> ring

theorem vsum_map_rot (θ : ℝ) (ax : Vec3) (l : List Vec3) :
    vsum (l.map (rotApply θ ax)) = rotApply θ ax (vsum l) := by
  induction l with
  | nil => rw [List.map_nil, vsum_nil, rotApply_zero]
  | cons a l ih => rw [List.map_cons, vsum_cons, vsum_cons, ih, rotApply_add]

theorem vsum_c4 : vsum [pMiddle, pTop, pLeft, pRight] = 0 := by
  simp only [vsum, List.foldr]
  ext <;> norm_num [pMiddle, pTop, pLeft, pRight]

theorem center_of_vsum_zero (t : Node) (h : vsum t.positions = 0) :
    t.center = 0 := by
  rw [Node.center, h]
  ext <;> simp

theorem center_core1 : core1.center = 0 := by
  apply center_of_vsum_zero
  simp only [core1, positions_portTree, Node.rotate, Node.positions_mapPos,
    positions_upN, positions_downN]
  rw [vsum_append, vsum_map_rot, vsum_map_rot, vsum_map_rot, vsum_c4]
  simp only [rotApply_zero]
  ext <;> simp

theorem center_core2 : core2.center = 0 := by
  apply center_of_vsum_zero
  simp only [core2, positions_portTree, Node.rotate, Node.positions_mapPos,
    positions_upN, positions_downN]
  rw [vsum_append, vsum_map_rot, vsum_c4]
  simp only [rotApply_zero]
  ext <;> simp

theorem center_core3 (o : Vec3) : (core3 o).center = 0 := by
  apply center_of_vsum_zero
  simp only [core3, positions_portTree, Node.rotate, Node.positions_mapPos,
    positions_upN, positions_downN]
  rw [vsum_append, vsum_map_rot, vsum_map_rot, vsum_map_rot, vsum_c4]
  simp only [rotApply_zero]
  ext <;> simp

theorem positions_ne_of_len {t : Node} (h : t.positions.length = 8) :
    t.positions ≠ [] := by
  intro h0
  rw [h0] at h
  simp at h

theorem center_finishTree (a : Option Particle) (o : Vec3) (s : ℝ)
    (core : Node) (hc : core.center = 0) (hl : core.positions.length = 8) :
    (finishTree a o s core).center = anchorPos a + s • unitV o := by
  have hne : core.positions ≠ [] := positions_ne_of_len hl
  cases a with
  | none =>
      show ((anchorStep none core).translate (s • unitV o)).center = _
      simp only [anchorStep, anchorPos]
      rw [center_translate _ _ hne, hc]
  | some q =>
      show ((anchorStep (some q) core).translate (s • unitV o)).center = _
      simp only [anchorStep, anchorPos]
      have hne' : (core.translateTo q.pos).positions ≠ [] := by
        rw [Node.translateTo]
        intro h0
        have := congrArg List.length h0
        rw [len_translate, hl] at this
        simp at this
      rw [center_translate _ _ hne', center_translateTo _ _ hne]

/-- C3: for every non-zero orientation `o` and separation `s`, a freshly
constructed Port's `center` equals `anchor.position + s·unit_vector(o)`
when an anchor was supplied, and `s·unit_vector(o)` when not. -/
theorem C3_port_center (a : Option Particle) (o : Vec3) (s : ℝ) (p : Port)
    (ho : o ≠ 0) (hp : mkPortE a (some o) s = .ok p) :
    p.centerQ = anchorPos a + s • unitV o := by
  by_cases h1 : allclose d0 (unitV (-o))
  · rw [mkPortE_branch1 a s ho h1] at hp
    injection hp with hp
    subst hp
    show (finishTree a o s core1).center = _
    exact center_finishTree a o s core1 center_core1 len_core1
  · by_cases h2 : allclose d0 (unitV o)
    · rw [mkPortE_branch2 a s ho h1 h2] at hp
      injection hp with hp
      subst hp
      show (finishTree a o s core2).center = _
      exact center_finishTree a o s core2 center_core2 len_core2
    · rw [mkPortE_branch3 a s ho h1 h2] at hp
      injection hp with hp
      subst hp
      show (finishTree a o s (core3 o)).center = _
      exact center_finishTree a o s (core3 o) (center_core3 o) (len_core3 o)

/-- C3 witness: anchor at (5,6,7), orientation (1,0,0), separation 2. -/
theorem C3_port_center_witness :
    ∃ p, mkPortE (some ⟨"A", ⟨5, 6, 7⟩, false, 42⟩) (some ⟨1, 0, 0⟩) 2
        = .ok p ∧
      p.centerQ = anchorPos (some ⟨"A", ⟨5, 6, 7⟩, false, 42⟩)
        + (2 : ℝ) • unitV ⟨1, 0, 0⟩ := by
  have ho : (⟨1, 0, 0⟩ : Vec3) ≠ 0 := fun h => by
    have := congrArg Vec3.x h
    simp at this
  obtain ⟨p, hp⟩ := mkPortE_ok (some ⟨"A", ⟨5, 6, 7⟩, false, 42⟩) 2 ho
  exact ⟨p, hp,
    C3_port_center (some ⟨"A", ⟨5, 6, 7⟩, false, 42⟩) ⟨1, 0, 0⟩ 2 p ho hp⟩

/-- C4: the degenerate antiparallel scenario — `orientation=(0,-1,0)`, no
anchor, `separation=0` takes the first branch (rotate `down` by π about z,
then the whole Port by π about z), after which `up`'s direction is exactly
`(0,-1,0)` and `down`'s direction is exactly `(0,1,0)`. -/
theorem C4_antiparallel_scenario :
    ∃ p, mkPortE none (some ⟨0, -1, 0⟩) 0 = .ok p ∧
      p.upDir = ⟨0, -1, 0⟩ ∧ p.downDir = ⟨0, 1, 0⟩ := by
  have ho : (⟨0, -1, 0⟩ : Vec3) ≠ 0 := fun h => by
    have := congrArg Vec3.y h
    simp at this
  have hneg : -(⟨0, -1, 0⟩ : Vec3) = d0 := by ext <;> norm_num [d0]
  have h1 : allclose d0 (unitV (-(⟨0, -1, 0⟩ : Vec3))) := by
    rw [hneg, unitV_d0]
    exact allclose_refl d0
  refine ⟨_, mkPortE_branch1 none 0 ho h1, ?_, ?_⟩
  · have hup : Port.upDir
        (⟨finishTree none ⟨0, -1, 0⟩ 0 core1, none, false⟩ : Port)
        = -d0 := by
      simp only [core1]
      rw [upDir_finish _ _ _ _ _ _ _ (by rw [len_rotate, len_upN]; norm_num)]
      exact dirOf_core1_up
    rw [hup]
    ext <;> norm_num [d0]
  · have hdn : Port.downDir
        (⟨finishTree none ⟨0, -1, 0⟩ 0 core1, none, false⟩ : Port)
        = d0 := by
      simp only [core1]
      rw [downDir_finish _ _ _ _ _ _ _
        (by rw [len_rotate, len_rotate, len_downN]; norm_num)]
      exact dirOf_core1_down
    rw [hdn]
    rfl

/-- C5: whenever the orientation is parallel or antiparallel (within the
`allclose` tolerance) to the canonical default, Port construction succeeds
without raising `DegenerateVectorError`: one of the two dedicated branches
fires before the general-case branch can compute a zero cross-product
axis. -/
theorem C5_degenerate_no_error (a : Option Particle) (o : Vec3) (s : ℝ)
    (ho : o ≠ 0)
    (h : allclose d0 (unitV (-o)) ∨ allclose d0 (unitV o)) :
    ∃ p, mkPortE a (some o) s = .ok p := by
  rcases h with h1 | h2
  · exact ⟨_, mkPortE_branch1 a s ho h1⟩
  · by_cases h1 : allclose d0 (unitV (-o))
    · exact ⟨_, mkPortE_branch1 a s ho h1⟩
    · exact ⟨_, mkPortE_branch2 a s ho h1 h2⟩

/-- C5 witness: a concrete instantiation at the antiparallel orientation
`(0,-1,0)`. -/
theorem C5_degenerate_no_error_witness :
    (⟨0, -1, 0⟩ : Vec3) ≠ 0 ∧
      (allclose d0 (unitV (-(⟨0, -1, 0⟩ : Vec3)))
        ∨ allclose d0 (unitV (⟨0, -1, 0⟩ : Vec3))) ∧
      ∃ p, mkPortE none (some ⟨0, -1, 0⟩) 0 = .ok p := by
  have ho : (⟨0, -1, 0⟩ : Vec3) ≠ 0 := fun h => by
    have := congrArg Vec3.y h
    simp at this
  have hneg : -(⟨0, -1, 0⟩ : Vec3) = d0 := by ext <;> norm_num [d0]
  have h1 : allclose d0 (unitV (-(⟨0, -1, 0⟩ : Vec3))) := by
    rw [hneg, unitV_d0]
    exact allclose_refl d0
  exact ⟨ho, Or.inl h1,
    C5_degenerate_no_error none ⟨0, -1, 0⟩ 0 ho (Or.inl h1)⟩

/-- C6: for every Port (indeed any Compound subtree with at least one
particle) and every point `pt`, `translate_to(pt)` followed by reading
`center` returns exactly `pt`. -/
theorem C6_translate_to_center (p : Port) (pt : Vec3)
    (h : p.tree.positions ≠ []) :
    (p.translateToP pt).centerQ = pt := by
  show (p.tree.translateTo pt).center = pt
  exact center_translateTo pt p.tree h

/-- C6 witness: the freshly assembled eight-particle Port tree moved to
(1,2,3). -/
theorem C6_translate_to_center_witness :
    (portTree upN downN : Node).positions ≠ [] ∧
      ((Port.mk (portTree upN downN) none false).translateToP
        ⟨1, 2, 3⟩).centerQ = ⟨1, 2, 3⟩ := by
  have h : (portTree upN downN : Node).positions ≠ [] := by
    rw [positions_portTree, positions_upN, positions_downN]
    simp
  exact ⟨h, C6_translate_to_center ⟨portTree upN downN, none, false⟩ _ h⟩

/-- C7: cloning never aliases the anchor — the clone's anchor is a distinct
instance (fresh id) with the same name and position; when the original
anchor lay inside the cloned subtree, the clone's anchor is its structural
counterpart inside the new tree, and under the freshness of the id offset it
never belongs to the original tree. -/
theorem C7_clone_anchor (p : Port) (a : Particle) (k : ℕ) (hk : 0 < k)
    (ha : p.anchor = some a) :
    ∃ a', (clonePort k p).anchor = some a' ∧ a'.pid ≠ a.pid ∧
      a'.name = a.name ∧ a'.pos = a.pos ∧
      (a ∈ p.tree.particles → a' ∈ (clonePort k p).tree.particles) ∧
      ((∀ q ∈ p.tree.particles, q.pid < k) → a' ∉ p.tree.particles) := by
  refine ⟨{ a with pid := a.pid + k }, ?_, ?_, rfl, rfl, ?_, ?_⟩
  · show p.anchor.map _ = _
    rw [ha]
    rfl
  · show a.pid + k ≠ a.pid
    omega
  · intro hmem
    show _ ∈ (p.tree.cloneWith k).particles
    rw [Node.particles_cloneWith]
    exact List.mem_map_of_mem _ hmem
  · intro hfresh hmem
    have h : a.pid + k < k := hfresh _ hmem
    omega

/-- C7 witness: a Port over the fresh eight-particle tree anchored at its
own `up`/`middle` particle, cloned with id offset 100. -/
theorem C7_clone_anchor_witness :
    ∃ a', (clonePort 100
        ⟨portTree upN downN, some ⟨"G", pMiddle, true, 0⟩, false⟩).anchor
          = some a' ∧
      a'.pid ≠ (⟨"G", pMiddle, true, 0⟩ : Particle).pid ∧
      a'.name = (⟨"G", pMiddle, true, 0⟩ : Particle).name ∧
      a'.pos = (⟨"G", pMiddle, true, 0⟩ : Particle).pos ∧
      ((⟨"G", pMiddle, true, 0⟩ : Particle)
          ∈ (portTree upN downN : Node).particles →
        a' ∈ (clonePort 100
          ⟨portTree upN downN, some ⟨"G", pMiddle, true, 0⟩, false⟩).tree.particles) ∧
      ((∀ q ∈ (portTree upN downN : Node).particles, q.pid < 100) →
        a' ∉ (portTree upN downN : Node).particles) :=
  C7_clone_anchor ⟨portTree upN downN, some ⟨"G", pMiddle, true, 0⟩, false⟩
    ⟨"G", pMiddle, true, 0⟩ 100 (by norm_num) rfl

theorem finishTree_core1_shape (a : Option Particle) (o : Vec3) (s : ℝ) :
    ∃ f g, finishTree a o s core1
      = Node.compound "Port" true
        (.cons "up" ((subport 0).mapPos f)
          (.cons "down" (((subport 0).cloneWith 4).mapPos g) .nil)) := by
  cases a with
  | none =>
      exact ⟨fun v => rotApply Real.pi zAxis v + s • unitV o,
        fun v => rotApply Real.pi zAxis (rotApply Real.pi zAxis v)
          + s • unitV o, rfl⟩
  | some q =>
      exact ⟨fun v => rotApply Real.pi zAxis v + (q.pos - core1.center)
          + s • unitV o,
        fun v => rotApply Real.pi zAxis (rotApply Real.pi zAxis v)
          + (q.pos - core1.center) + s • unitV o, rfl⟩

theorem finishTree_core2_shape (a : Option Particle) (o : Vec3) (s : ℝ) :
    ∃ f g, finishTree a o s core2
      = Node.compound "Port" true
        (.cons "up" ((subport 0).mapPos f)
          (.cons "down" (((subport 0).cloneWith 4).mapPos g) .nil)) := by
  cases a with
  | none =>
      exact ⟨fun v => v + s • unitV o,
        fun v => rotApply Real.pi zAxis v + s • unitV o, rfl⟩
  | some q =>
      exact ⟨fun v => v + (q.pos - core2.center) + s • unitV o,
        fun v => rotApply Real.pi zAxis v + (q.pos - core2.center)
          + s • unitV o, rfl⟩

theorem finishTree_core3_shape (a : Option Particle) (o : Vec3) (s : ℝ) :
    ∃ f g, finishTree a o s (core3 o)
      = Node.compound "Port" true
        (.cons "up" ((subport 0).mapPos f)
          (.cons "down" (((subport 0).cloneWith 4).mapPos g) .nil)) := by
  cases a with
  | none =>
      exact ⟨fun v => rotApply (vangle d0 o) (Vec3.cross d0 o) v
          + s • unitV o,
        fun v => rotApply Real.pi (Vec3.cross d0 o)
          (rotApply (vangle d0 o) (Vec3.cross d0 o) v) + s • unitV o, rfl⟩
  | some q =>
      exact ⟨fun v => rotApply (vangle d0 o) (Vec3.cross d0 o) v
          + (q.pos - (core3 o).center) + s • unitV o,
        fun v => rotApply Real.pi (Vec3.cross d0 o)
          (rotApply (vangle d0 o) (Vec3.cross d0 o) v)
          + (q.pos - (core3 o).center) + s • unitV o, rfl⟩

/-- C8: every freshly constructed Port is the ghost Compound named `Port`
with exactly the two children keyed `up` and `down`, each a position-mapped
copy of the canonical `subport` frame (four ghost `G` particles keyed
`middle`/`top`/`left`/`right`); the canonical frame carries the fixed local
offsets, and `down` is the structural clone of `up` (same labels, names and
positions, fresh disjoint particle ids), built before any rotation. -/
theorem C8_fresh_structure (a : Option Particle) (o : Vec3) (s : ℝ)
    (p : Port) (ho : o ≠ 0) (hp : mkPortE a (some o) s = .ok p) :
    (∃ f g, p.tree = Node.compound "Port" true
        (.cons "up" ((subport 0).mapPos f)
          (.cons "down" (((subport 0).cloneWith 4).mapPos g) .nil)))
    ∧ (subport 0).positions = [pMiddle, pTop, pLeft, pRight]
    ∧ (subport 0).cloneWith 4 = subport 4
    ∧ ∀ q ∈ (subport 0).particles, ∀ r ∈ ((subport 0).cloneWith 4).particles,
        q.pid ≠ r.pid := by
  refine ⟨?_, rfl, ?_, ?_⟩
  · by_cases h1 : allclose d0 (unitV (-o))
    · rw [mkPortE_branch1 a s ho h1] at hp
      injection hp with hp
      subst hp
      exact finishTree_core1_shape a o s
    · by_cases h2 : allclose d0 (unitV o)
      · rw [mkPortE_branch2 a s ho h1 h2] at hp
        injection hp with hp
        subst hp
        exact finishTree_core2_shape a o s
      · rw [mkPortE_branch3 a s ho h1 h2] at hp
        injection hp with hp
        subst hp
        exact finishTree_core3_shape a o s
  · rfl
  · decide

/-- C8 witness: a concrete successful construction at `o = (1,0,0)`. -/
theorem C8_fresh_structure_witness :
    ∃ p, mkPortE none (some ⟨1, 0, 0⟩) 0 = .ok p ∧
      ((∃ f g, p.tree = Node.compound "Port" true
          (.cons "up" ((subport 0).mapPos f)
            (.cons "down" (((subport 0).cloneWith 4).mapPos g) .nil)))
      ∧ (subport 0).positions = [pMiddle, pTop, pLeft, pRight]
      ∧ (subport 0).cloneWith 4 = subport 4
      ∧ ∀ q ∈ (subport 0).particles,
          ∀ r ∈ ((subport 0).cloneWith 4).particles, q.pid ≠ r.pid) := by
  have ho : (⟨1, 0, 0⟩ : Vec3) ≠ 0 := fun h => by
    have := congrArg Vec3.x h
    simp at this
  obtain ⟨p, hp⟩ := mkPortE_ok none 0 ho
  exact ⟨p, hp, C8_fresh_structure none ⟨1, 0, 0⟩ 0 p ho hp⟩

/-- C9: cloning preserves the occupancy flag — `Port._clone` copies
`used` verbatim, so a clone of a consumed Port is itself marked used. -/
theorem C9_clone_used (k : ℕ) (p : Port) : (clonePort k p).used = p.used :=
  rfl

theorem particles_portTree (u dn : Node) :
    (portTree u dn).particles = u.particles ++ dn.particles := by
  simp [portTree, Node.particles, ChildList.particles]

theorem pid_mem_mapPos {f : Vec3 → Vec3} {t : Node} {q : Particle}
    (hq : q ∈ (Node.mapPos f t).particles) :
    ∃ r ∈ t.particles, q.pid = r.pid := by
  rw [Node.particles_mapPos] at hq
  obtain ⟨r, hr, hrq⟩ := List.mem_map.mp hq
  exact ⟨r, hr, by rw [← hrq]⟩

theorem pids_upN_lt : ∀ r ∈ upN.particles, r.pid < 4 := by
  intro r hr
  have h : upN.particles = [⟨"G", pMiddle, true, 0⟩, ⟨"G", pTop, true, 1⟩,
      ⟨"G", pLeft, true, 2⟩, ⟨"G", pRight, true, 3⟩] := rfl
  rw [h] at hr
  simp only [List.mem_cons, List.not_mem_nil, or_false] at hr
  rcases hr with h' | h' | h' | h' <;> subst h' <;> norm_num

theorem pids_downN_lt : ∀ r ∈ downN.particles, r.pid < 8 := by
  intro r hr
  have h : downN.particles = [⟨"G", pMiddle, true, 4⟩, ⟨"G", pTop, true, 5⟩,
      ⟨"G", pLeft, true, 6⟩, ⟨"G", pRight, true, 7⟩] := rfl
  rw [h] at hr
  simp only [List.mem_cons, List.not_mem_nil, or_false] at hr
  rcases hr with h' | h' | h' | h' <;> subst h' <;> norm_num

theorem pids_core1_lt : ∀ r ∈ core1.particles, r.pid < 8 := by
  intro r hr
  simp only [core1, Node.rotate] at hr
  rw [particles_portTree] at hr
  rcases List.mem_append.mp hr with h | h
  · obtain ⟨r', hr', hp⟩ := pid_mem_mapPos h
    rw [hp]
    exact lt_trans (pids_upN_lt r' hr') (by norm_num)
  · obtain ⟨r1, hr1, hp1⟩ := pid_mem_mapPos h
    obtain ⟨r2, hr2, hp2⟩ := pid_mem_mapPos hr1
    rw [hp1, hp2]
    exact pids_downN_lt r2 hr2

theorem pids_core2_lt : ∀ r ∈ core2.particles, r.pid < 8 := by
  intro r hr
  simp only [core2, Node.rotate] at hr
  rw [particles_portTree] at hr
  rcases List.mem_append.mp hr with h | h
  · exact lt_trans (pids_upN_lt r h) (by norm_num)
  · obtain ⟨r', hr', hp⟩ := pid_mem_mapPos h
    rw [hp]
    exact pids_downN_lt r' hr'

theorem pids_core3_lt (o : Vec3) : ∀ r ∈ (core3 o).particles, r.pid < 8 := by
  intro r hr
  simp only [core3, Node.rotate] at hr
  rw [particles_portTree] at hr
  rcases List.mem_append.mp hr with h | h
  · obtain ⟨r', hr', hp⟩ := pid_mem_mapPos h
    rw [hp]
    exact lt_trans (pids_upN_lt r' hr') (by norm_num)
  · obtain ⟨r1, hr1, hp1⟩ := pid_mem_mapPos h
    obtain ⟨r2, hr2, hp2⟩ := pid_mem_mapPos hr1
    rw [hp1, hp2]
    exact pids_downN_lt r2 hr2

theorem pids_finishTree_lt (a : Option Particle) (o : Vec3) (s : ℝ)
    (core : Node) (hcore : ∀ r ∈ core.particles, r.pid < 8) :
    ∀ q ∈ (finishTree a o s core).particles, q.pid < 8 := by
  intro q hq
  cases a with
  | none =>
      simp only [finishTree, anchorStep, Node.translate] at hq
      obtain ⟨r, hr, hp⟩ := pid_mem_mapPos hq
      rw [hp]
      exact hcore r hr
  | some p' =>
      simp only [finishTree, anchorStep, Node.translateTo,
        Node.translate] at hq
      obtain ⟨r1, hr1, hp1⟩ := pid_mem_mapPos hq
      obtain ⟨r2, hr2, hp2⟩ := pid_mem_mapPos hr1
      rw [hp1, hp2]
      exact hcore r2 hr2

/-- C10: constructing a Port with an anchor never mutates the anchor —
the stored `anchor` is the very particle that was passed in (position and
all), and the Port's own subtree, the only thing `translate_to`/`translate`
act on, consists exclusively of the eight fresh port particles (ids 0-7),
so it never contains a pre-existing anchor particle. -/
theorem C10_anchor_unmutated (a : Particle) (o : Vec3) (s : ℝ) (p : Port)
    (ho : o ≠ 0) (hp : mkPortE (some a) (some o) s = .ok p) :
    p.anchor = some a ∧ ∀ q ∈ p.tree.particles, q.pid < 8 := by
  by_cases h1 : allclose d0 (unitV (-o))
  · rw [mkPortE_branch1 (some a) s ho h1] at hp
    injection hp with hp
    subst hp
    exact ⟨rfl, pids_finishTree_lt (some a) o s core1 pids_core1_lt⟩
  · by_cases h2 : allclose d0 (unitV o)
    · rw [mkPortE_branch2 (some a) s ho h1 h2] at hp
      injection hp with hp
      subst hp
      exact ⟨rfl, pids_finishTree_lt (some a) o s core2 pids_core2_lt⟩
    · rw [mkPortE_branch3 (some a) s ho h1 h2] at hp
      injection hp with hp
      subst hp
      exact ⟨rfl, pids_finishTree_lt (some a) o s (core3 o)
        (pids_core3_lt o)⟩

/-- C10 witness: an anchor with id 42 at (5,6,7), orientation (0,1,0). -/
theorem C10_anchor_unmutated_witness :
    ∃ p, mkPortE (some ⟨"A", ⟨5, 6, 7⟩, false, 42⟩) (some ⟨0, 1, 0⟩) 1
        = .ok p ∧
      p.anchor = some ⟨"A", ⟨5, 6, 7⟩, false, 42⟩ ∧
      ∀ q ∈ p.tree.particles, q.pid < 8 := by
  have ho : (⟨0, 1, 0⟩ : Vec3) ≠ 0 := fun h => by
    have := congrArg Vec3.y h
    simp at this
  obtain ⟨p, hp⟩ := mkPortE_ok (some ⟨"A", ⟨5, 6, 7⟩, false, 42⟩) 1 ho
  exact ⟨p, hp,
    C10_anchor_unmutated ⟨"A", ⟨5, 6, 7⟩, false, 42⟩ ⟨0, 1, 0⟩ 1 p ho hp⟩

